import Mathlib

/-!
Verification of the SO(3) reparameterizer and the symmetric central-slice
decoder of `lib-python/models.py`, against the natural-language specification.

Numeric tensors are modelled over `ℚ` (exact arithmetic standing in for the
float tensors of the source); 3-vectors are a structure `Vec3`, rotation
matrices are `Matrix (Fin 3) (Fin 3) ℚ`, batches are lists, and the in-place
tensor mutation performed by `FTSliceDecoder.decode` is made explicit by
returning the final state of the coordinate buffer alongside the result.
-/

namespace Models

/-- A 3-vector of rationals, modelling a float 3-tensor row
(a coordinate or an so(3) tangent vector). -/
structure Vec3 where
  x : ℚ
  y : ℚ
  z : ℚ
deriving DecidableEq, Repr

/-- The zero 3-vector. -/
def Vec3.zero : Vec3 := ⟨0, 0, 0⟩

/-- Componentwise negation of a 3-vector (`-lattice[...,0:3]` in the source). -/
def negV (v : Vec3) : Vec3 := ⟨-v.x, -v.y, -v.z⟩

/-- Elementwise (Hadamard) product of two 3-vectors, modelling `eps*z_std`. -/
def hprod (a b : Vec3) : Vec3 := ⟨a.x * b.x, a.y * b.y, a.z * b.z⟩

/-- 3×3 matrices over ℚ, modelling rotation tensors. -/
abbrev Mat3 := Matrix (Fin 3) (Fin 3) ℚ

/-- Row-vector times matrix, modelling `coords @ rot` (`R.T*x` in the source
comments): component j of the result is `Σ_k v_k · M k j`. -/
def vecMul (v : Vec3) (M : Mat3) : Vec3 :=
  ⟨v.x * M 0 0 + v.y * M 1 0 + v.z * M 2 0,
   v.x * M 0 1 + v.y * M 1 1 + v.z * M 2 1,
   v.x * M 0 2 + v.y * M 1 2 + v.z * M 2 2⟩

/-- Orthonormality of a 3×3 matrix: `Mᵀ · M = 1`. -/
def IsOrthonormal (M : Mat3) : Prop := M.transpose * M = 1

instance (M : Mat3) : Decidable (IsOrthonormal M) := by
  unfold IsOrthonormal; infer_instance

/-!
`SO3reparameterize.sampleSO3` (models.py:373-386).  The source reads the
module's `self.training` flag and the global RNG; both are made explicit
inputs here (`training`, `eps`).  The external `lie_tools.expmap` (its file is
not under src/) is passed as an opaque matrix-valued function argument.

```
if not self.training:
    return z_mu, z_std
eps = torch.randn_like(z_std)
w_eps = eps*z_std
rot_eps = lie_tools.expmap(w_eps)
rot_sampled = z_mu @ rot_eps
return rot_sampled, w_eps
```
-/

/-- Shallow embedding of `SO3reparameterize.sampleSO3`. -/
def sampleSO3 (expmap : Vec3 → Mat3) (training : Bool) (z_mu : Mat3)
    (z_std : Vec3) (eps : Vec3) : Mat3 × Vec3 :=
  if training then
    let w_eps := hprod eps z_std
    let rot_eps := expmap w_eps
    let rot_sampled := z_mu * rot_eps
    (rot_sampled, w_eps)
  else
    (z_mu, z_std)

/-!
`FTSliceDecoder.decode` (models.py:137-144).  The source mutates the caller's
coordinate tensor in place (`lattice[...,0:3][w] = -lattice[...,0:3][w]`);
the embedding returns the pair (result rows, final state of the coordinate
buffer).  The mask `w` is computed from the buffer before the negation, the
core decoder `f` is evaluated on the negated buffer, and the imaginary
channel of the result is negated on exactly the masked rows.
-/

/-- The coordinate buffer after `decode`'s in-place step: every row with
strictly positive third component is negated. -/
def negWhere (lattice : List Vec3) : List Vec3 :=
  lattice.map fun p => if 0 < p.z then negV p else p

/-- Shallow embedding of `FTSliceDecoder.decode` (a.k.a. `decodeHalf`):
returns (decoded (real, imag) rows, final coordinate buffer). -/
def decodeList (f : Vec3 → ℚ × ℚ) (lattice : List Vec3) :
    List (ℚ × ℚ) × List Vec3 :=
  let lat' := negWhere lattice
  let res := lat'.map f
  let res' := (lattice.zip res).map fun pr =>
    if 0 < pr.1.z then (pr.2.1, -pr.2.2) else pr.2
  (res', lat')

/-- C1 (amended): in Eval mode `sampleSO3` returns the pair
`(z_mu, z_std)` — the mean rotation unchanged together with the *std*
argument (not a zero tangent vector) — independent of the random draw. -/
theorem sampleSO3_eval_returns_mu_std (expmap : Vec3 → Mat3) (z_mu : Mat3)
    (z_std : Vec3) (eps : Vec3) :
    sampleSO3 expmap false z_mu z_std eps = (z_mu, z_std) := rfl

/-- C1 counterexample: with std `(1,1,1)` the second component returned in
Eval mode is `(1,1,1)`, not the zero 3-vector the claim demands. -/
theorem sampleSO3_eval_tangent_ne_zero :
    (sampleSO3 (fun _ => 1) false 1 ⟨1, 1, 1⟩ ⟨5, 7, 11⟩).2 ≠ Vec3.zero := by
  decide

/-- C7: in Train mode `sampleSO3` returns exactly
`(z_mu · expmap(eps ⊙ z_std), eps ⊙ z_std)`; as a Lean function of
`(expmap, z_mu, z_std, eps)` it reads and mutates no other state. -/
theorem sampleSO3_train_eq (expmap : Vec3 → Mat3) (z_mu : Mat3)
    (z_std : Vec3) (eps : Vec3) :
    sampleSO3 expmap true z_mu z_std eps =
      (z_mu * expmap (hprod eps z_std), hprod eps z_std) := rfl

/-- C4 (amended, part of the analysis): the final state of the caller's
coordinate buffer after `decode` is the buffer with every positive-z row
negated in place — it is not left unchanged. -/
theorem decode_mutates_buffer (f : Vec3 → ℚ × ℚ) (lattice : List Vec3)
    (hpos : ∃ p ∈ lattice, 0 < p.z) :
    (decodeList f lattice).2 = negWhere lattice ∧
      (decodeList f lattice).2 ≠ lattice := by
  refine ⟨rfl, ?_⟩
  obtain ⟨p, hp, hz⟩ := hpos
  obtain ⟨i, hi, hip⟩ := List.getElem_of_mem hp
  intro h
  have h' : negWhere lattice = lattice := by simpa [decodeList] using h
  have e1 : (negWhere lattice).getD i Vec3.zero = negV p := by
    rw [List.getD_eq_getElem _ _ (by simpa [negWhere] using hi)]
    simp only [negWhere, List.getElem_map, hip, if_pos hz]
  have e2 : lattice.getD i Vec3.zero = p := by
    rw [List.getD_eq_getElem _ _ hi, hip]
  rw [h', e2] at e1
  have hzz : p.z = -p.z := congrArg Vec3.z e1
  simp only [negV] at hzz
  linarith

/-- C4 witness input: a one-row buffer whose coordinate has positive third
component is changed in place by `decode`. -/
theorem decode_mutates_buffer_example :
    (∃ p ∈ [(⟨1, 1, 1⟩ : Vec3)], 0 < p.z) ∧
      ((decodeList (fun _ => (0, 0)) [(⟨1, 1, 1⟩ : Vec3)]).2 =
          negWhere [(⟨1, 1, 1⟩ : Vec3)] ∧
        (decodeList (fun _ => (0, 0)) [(⟨1, 1, 1⟩ : Vec3)]).2 ≠
          [(⟨1, 1, 1⟩ : Vec3)]) :=
  ⟨⟨⟨1, 1, 1⟩, by simp, by norm_num⟩,
    decode_mutates_buffer _ _ ⟨⟨1, 1, 1⟩, by simp, by norm_num⟩⟩

/-- C4 counterexample to the claim as stated: the caller-supplied buffer
`[(1,1,1)]` (third component strictly positive) is not left unchanged —
after the call it holds `[(-1,-1,-1)]`. -/
theorem decode_buffer_changed_concrete :
    (decodeList (fun _ => (0, 0)) [(⟨1, 1, 1⟩ : Vec3)]).2 ≠
      [(⟨1, 1, 1⟩ : Vec3)] := by
  decide

/-- C6: Hermitian round-trip law of `decodeHalf`.  For any core decoder `f`
and any coordinate `p` with strictly positive third component, the decoded
row at `-p` has the same real part and the negated imaginary part of the
decoded row at `p`. -/
theorem decode_roundtrip (f : Vec3 → ℚ × ℚ) (p : Vec3) (hz : 0 < p.z) :
    (decodeList f [negV p]).1 =
      (decodeList f [p]).1.map fun rc => (rc.1, -rc.2) := by
  have hnz : ¬ 0 < (negV p).z := by simp only [negV]; linarith
  simp [decodeList, negWhere, if_pos hz, if_neg hnz]

/-- C6 witness: the round-trip law at `p = (2, 3, 1)` with the core decoder
`q ↦ (q.x + q.z, q.y - 5)`. -/
theorem decode_roundtrip_example :
    (0 : ℚ) < (⟨2, 3, 1⟩ : Vec3).z ∧
      (decodeList (fun q => (q.x + q.z, q.y - 5)) [negV ⟨2, 3, 1⟩]).1 =
        (decodeList (fun q => (q.x + q.z, q.y - 5)) [(⟨2, 3, 1⟩ : Vec3)]).1.map
          fun rc => (rc.1, -rc.2) :=
  ⟨by norm_num, decode_roundtrip _ _ (by norm_num)⟩

/-!
Pixel index bookkeeping of `FTSliceDecoder.__init__` (models.py:87-112),
translated from the numpy expressions.  All index collections are kept as
lists in the exact order numpy produces them, since `forward` relies on the
order of `top` and `bottom_rev`.
-/

/-- `D2 = int(D/2)`. -/
def half (D : ℕ) : ℕ := D / 2

/-- `self.center = D2*D + D2`: flat index of the center pixel. -/
def center (D : ℕ) : ℕ := half D * D + half D

/-- `np.arange(a, b, s)` for a positive step `s`. -/
def arange (a b s : ℕ) : List ℕ :=
  (List.range ((b - a + s - 1) / s)).map fun k => a + k * s

/-- `self.extra = np.arange((D2+1)*D, D**2, D)`: the bottom-left column
indices without a conjugate pair. -/
def extra (D : ℕ) : List ℕ := arange ((half D + 1) * D) (D ^ 2) D

/-- `self.all_eval = np.concatenate((np.arange(self.center+1), self.extra))`. -/
def all_eval (D : ℕ) : List ℕ := List.range (center D + 1) ++ extra D

/-- Row `j` of the raveled meshgrid `j*D+i` with `i` ranging over
`np.arange(1, D)`. -/
def rowIdx (D j : ℕ) : List ℕ :=
  (List.range (D - 1)).map fun im => j * D + (im + 1)

/-- `(j*D+i).ravel()` for `i, j = np.meshgrid(np.arange(1,D), np.arange(1,D2+1))`. -/
def ravelTop (D : ℕ) : List ℕ :=
  (List.range (half D)).flatMap fun jm => rowIdx D (jm + 1)

/-- `self.top = (j*D+i).ravel()[:-D2]`. -/
def top (D : ℕ) : List ℕ :=
  (ravelTop D).take ((ravelTop D).length - half D)

/-- `(j*D+i).ravel()` for `i, j = np.meshgrid(np.arange(1,D), np.arange(D2,D))`. -/
def ravelBot (D : ℕ) : List ℕ :=
  (List.range (D - half D)).flatMap fun jm => rowIdx D (jm + half D)

/-- `self.bottom_rev = (j*D+i).ravel()[D2:][::-1]`. -/
def bottom_rev (D : ℕ) : List ℕ :=
  ((ravelBot D).drop (half D)).reverse

example : center 4 = 10 := by decide
example : extra 4 = [12] := by decide
example : all_eval 4 = [0, 1, 2, 3, 4, 5, 6, 7, 8, 9, 10, 12] := by decide
example : top 4 = [5, 6, 7, 9] := by decide
example : bottom_rev 4 = [15, 14, 13, 11] := by decide
example : center 5 = 12 := by decide
example : extra 5 = [15, 20] := by decide
example : top 5 = [6, 7, 8, 9, 11, 12] := by decide
example : bottom_rev 5 = [24, 23, 22, 21, 19, 18, 17, 16, 14, 13] := by decide
example : top 2 = [] ∧ bottom_rev 2 = [] ∧ all_eval 2 = [0, 1, 2, 3] := by decide

/-!
Structural normal forms of the index lists for an even side length,
written as `D = 2*m+2` (the general even `D ≥ 2`).
-/

theorem half_even (m : ℕ) : half (2 * m + 2) = m + 1 := by
  unfold half; omega

theorem extra_even (m : ℕ) :
    extra (2 * m + 2) = (List.range m).map fun k => (m + 2 + k) * (2 * m + 2) := by
  unfold extra arange
  rw [half_even]
  have h1 : (m + 2) * (2 * m + 2) ≤ (2 * m + 2) ^ 2 := by nlinarith
  have hc : (2 * m + 2) ^ 2 - (m + 2) * (2 * m + 2) + (2 * m + 2) - 1 =
      (2 * m + 2) * m + (2 * m + 1) := by
    zify [h1, show (1 : ℕ) ≤ (2 * m + 2) ^ 2 - (m + 2) * (2 * m + 2) + (2 * m + 2) from
      le_trans (by omega) (Nat.le_add_left _ _)]
    ring
  rw [hc, Nat.mul_add_div (by omega), Nat.div_eq_of_lt (by omega), Nat.add_zero]
  exact List.map_congr_left fun k _ => by ring

theorem rowIdx_length (D j : ℕ) : (rowIdx D j).length = D - 1 := by
  simp [rowIdx]

theorem length_rowFlat (a D : ℕ) (g : ℕ → ℕ) :
    ((List.range a).flatMap fun j => rowIdx D (g j)).length = a * (D - 1) := by
  induction a with
  | zero => simp
  | succ n ih =>
      rw [List.range_succ, List.flatMap_append, List.length_append, ih]
      simp only [List.flatMap_cons, List.flatMap_nil, List.append_nil, rowIdx_length]
      ring

theorem topEq (m : ℕ) :
    top (2 * m + 2) =
      ((List.range m).flatMap fun jm => rowIdx (2 * m + 2) (jm + 1)) ++
        (List.range m).map fun im => (m + 1) * (2 * m + 2) + (im + 1) := by
  unfold top ravelTop
  rw [half_even, length_rowFlat]
  have hD1 : 2 * m + 2 - 1 = 2 * m + 1 := by omega
  rw [hD1]
  rw [List.range_succ, List.flatMap_append, List.flatMap_cons, List.flatMap_nil,
    List.append_nil]
  have hlen : ((List.range m).flatMap fun jm => rowIdx (2 * m + 2) (jm + 1)).length
      = m * (2 * m + 1) := by rw [length_rowFlat, hD1]
  have hcount : (m + 1) * (2 * m + 1) - (m + 1) = m * (2 * m + 1) + m := by
    have h := show (m + 1) * (2 * m + 1) = m * (2 * m + 1) + (2 * m + 1) by ring
    omega
  rw [hcount, ← hlen, List.take_append]
  congr 1
  unfold rowIdx
  rw [← List.map_take, List.take_range]
  have : min m (2 * m + 2 - 1) = m := by omega
  rw [this]

theorem botPreEq (m : ℕ) :
    (ravelBot (2 * m + 2)).drop (half (2 * m + 2)) =
      ((List.range m).map fun k => (m + 1) * (2 * m + 2) + (m + 2 + k)) ++
        (List.range m).flatMap fun k => rowIdx (2 * m + 2) (m + 2 + k) := by
  unfold ravelBot
  rw [half_even]
  have hs : 2 * m + 2 - (m + 1) = m + 1 := by omega
  rw [hs, List.range_succ_eq_map, List.flatMap_cons, List.flatMap_map]
  rw [List.drop_append_of_le_length (by rw [rowIdx_length]; omega)]
  congr 1
  · apply List.ext_getElem
    · simp [rowIdx]; omega
    · intro i h1 h2
      rw [List.getElem_drop]
      simp only [Nat.zero_add, rowIdx, List.getElem_map, List.getElem_range]
      omega
  · congr 1
    funext k
    congr 1
    omega

theorem center_even (m : ℕ) :
    center (2 * m + 2) = (m + 1) * (2 * m + 2) + (m + 1) := by
  unfold center
  rw [half_even]

theorem all_eval_length_even (m : ℕ) :
    (all_eval (2 * m + 2)).length = center (2 * m + 2) + 1 + m := by
  unfold all_eval
  rw [List.length_append, List.length_range, extra_even, List.length_map,
    List.length_range]

theorem top_length (D : ℕ) : (top D).length = half D * (D - 1) - half D := by
  unfold top ravelTop
  rw [List.length_take, length_rowFlat, Nat.min_eq_left (Nat.sub_le _ _)]

theorem bot_length (D : ℕ) :
    (bottom_rev D).length = (D - half D) * (D - 1) - half D := by
  unfold bottom_rev ravelBot
  rw [List.length_reverse, List.length_drop, length_rowFlat]

/-!
Membership characterizations (even side length) and flat-grid arithmetic.
-/

theorem grid_mod {D j i : ℕ} (hi : i < D) : (j * D + i) % D = i := by
  rw [mul_comm, Nat.mul_add_mod, Nat.mod_eq_of_lt hi]

theorem grid_eq {D j j' i i' : ℕ} (hi : i < D) (hi' : i' < D)
    (h : j * D + i = j' * D + i') : j = j' ∧ i = i' := by
  have hii : i = i' := by
    have h1 := grid_mod (j := j) hi
    have h2 := grid_mod (j := j') hi'
    rw [h, h2] at h1
    exact h1.symm
  refine ⟨?_, hii⟩
  have : j * D = j' * D := by omega
  exact Nat.eq_of_mul_eq_mul_right (by omega) this

theorem mem_top_even (m t : ℕ) :
    t ∈ top (2 * m + 2) ↔
      (∃ jm, jm < m ∧ ∃ im, im < 2 * m + 1 ∧
          t = (jm + 1) * (2 * m + 2) + (im + 1)) ∨
        ∃ im, im < m ∧ t = (m + 1) * (2 * m + 2) + (im + 1) := by
  rw [topEq]
  simp only [List.mem_append, List.mem_flatMap, List.mem_range, List.mem_map, rowIdx]
  constructor
  · rintro (⟨jm, hjm, im, him, h⟩ | ⟨im, him, h⟩)
    · exact Or.inl ⟨jm, hjm, im, by omega, h.symm⟩
    · exact Or.inr ⟨im, him, h.symm⟩
  · rintro (⟨jm, hjm, im, him, h⟩ | ⟨im, him, h⟩)
    · exact Or.inl ⟨jm, hjm, im, by omega, h.symm⟩
    · exact Or.inr ⟨im, him, h.symm⟩

theorem mem_bot_even (m n : ℕ) :
    n ∈ bottom_rev (2 * m + 2) ↔
      (∃ k, k < m ∧ n = (m + 1) * (2 * m + 2) + (m + 2 + k)) ∨
        ∃ k, k < m ∧ ∃ im, im < 2 * m + 1 ∧
          n = (m + 2 + k) * (2 * m + 2) + (im + 1) := by
  unfold bottom_rev
  rw [List.mem_reverse, botPreEq]
  simp only [List.mem_append, List.mem_flatMap, List.mem_range, List.mem_map, rowIdx]
  constructor
  · rintro (⟨k, hk, h⟩ | ⟨k, hk, im, him, h⟩)
    · exact Or.inl ⟨k, hk, h.symm⟩
    · exact Or.inr ⟨k, hk, im, by omega, h.symm⟩
  · rintro (⟨k, hk, h⟩ | ⟨k, hk, im, him, h⟩)
    · exact Or.inl ⟨k, hk, h.symm⟩
    · exact Or.inr ⟨k, hk, im, by omega, h.symm⟩

theorem mem_all_eval_even (m n : ℕ) :
    n ∈ all_eval (2 * m + 2) ↔
      n ≤ center (2 * m + 2) ∨ ∃ k, k < m ∧ n = (m + 2 + k) * (2 * m + 2) := by
  unfold all_eval
  rw [extra_even]
  simp only [List.mem_append, List.mem_range, List.mem_map]
  constructor
  · rintro (h | ⟨k, hk, h⟩)
    · exact Or.inl (by omega)
    · exact Or.inr ⟨k, hk, h.symm⟩
  · rintro (h | ⟨k, hk, h⟩)
    · exact Or.inl (by omega)
    · exact Or.inr ⟨k, hk, h.symm⟩

theorem all_eval_bot_disjoint (m n : ℕ) (ha : n ∈ all_eval (2 * m + 2)) :
    n ∉ bottom_rev (2 * m + 2) := by
  intro hb
  rw [mem_all_eval_even] at ha
  rw [mem_bot_even] at hb
  rcases ha with hc | ⟨k', hk', he⟩
  · rw [center_even] at hc
    rcases hb with ⟨k, hk, h⟩ | ⟨k, hk, im, him, h⟩
    · omega
    · have e1 : (m + 2 + k) * (2 * m + 2) =
          (m + 1) * (2 * m + 2) + (k + 1) * (2 * m + 2) := by ring
      have e2 : 2 * m + 2 ≤ (k + 1) * (2 * m + 2) :=
        Nat.le_mul_of_pos_left _ (by omega)
      omega
  · rcases hb with ⟨k, hk, h⟩ | ⟨k, hk, im, him, h⟩
    · rw [he] at h
      have h' : (m + 1) * (2 * m + 2) + (m + 2 + k) =
          (m + 2 + k') * (2 * m + 2) + 0 := by omega
      have := grid_eq (by omega) (by omega) h'
      omega
    · rw [he] at h
      have h' : (m + 2 + k') * (2 * m + 2) + 0 =
          (m + 2 + k) * (2 * m + 2) + (im + 1) := by omega
      have := grid_eq (by omega) (by omega) h'
      omega

theorem all_eval_bot_cover (m n : ℕ) (hn : n < (2 * m + 2) ^ 2) :
    n ∈ all_eval (2 * m + 2) ∨ n ∈ bottom_rev (2 * m + 2) := by
  have hD : 0 < 2 * m + 2 := by omega
  obtain ⟨j, i, hi, hj, hn'⟩ :
      ∃ j i, i < 2 * m + 2 ∧ j < 2 * m + 2 ∧ n = (2 * m + 2) * j + i := by
    refine ⟨n / (2 * m + 2), n % (2 * m + 2), Nat.mod_lt n hD, ?_,
      (Nat.div_add_mod n (2 * m + 2)).symm⟩
    apply Nat.div_lt_of_lt_mul
    rw [pow_two] at hn
    exact hn
  subst hn'
  rw [mem_all_eval_even, mem_bot_even, center_even]
  have ej : (m + 1) * (2 * m + 2) = (2 * m + 2) * (m + 1) := by ring
  rcases Nat.lt_or_ge j (m + 1) with hjm | hjm
  · left; left
    have e' : (2 * m + 2) * (j + 1) = (2 * m + 2) * j + (2 * m + 2) := by ring
    have hmul := Nat.mul_le_mul_left (2 * m + 2) (show j + 1 ≤ m + 1 by omega)
    omega
  · rcases Nat.lt_or_ge j (m + 2) with hjm2 | hjm2
    · have hjeq : j = m + 1 := by omega
      subst hjeq
      rcases Nat.lt_or_ge i (m + 2) with him | him
      · left; left
        omega
      · right; left
        exact ⟨i - (m + 2), by omega, by omega⟩
    · have ej2 : (m + 2 + (j - (m + 2))) * (2 * m + 2) = (2 * m + 2) * j := by
        have e : m + 2 + (j - (m + 2)) = j := by omega
        rw [e]; ring
      rcases Nat.eq_zero_or_pos i with hiz | hip
      · left; right
        exact ⟨j - (m + 2), by omega, by omega⟩
      · right; right
        exact ⟨j - (m + 2), by omega, i - 1, by omega, by omega⟩

theorem all_eval_sub_range (m n : ℕ) (ha : n ∈ all_eval (2 * m + 2)) :
    n < (2 * m + 2) ^ 2 := by
  rw [mem_all_eval_even, center_even] at ha
  have hsq : (2 * m + 2) ^ 2 = (2 * m + 2) * (2 * m + 2) := pow_two _
  rcases ha with hc | ⟨k, hk, he⟩
  · have : (m + 1) * (2 * m + 2) + (m + 1) < (2 * m + 2) * (2 * m + 2) := by nlinarith
    omega
  · have : (m + 2 + k) * (2 * m + 2) < (2 * m + 2) * (2 * m + 2) := by nlinarith
    omega

theorem bot_sub_range (m n : ℕ) (hb : n ∈ bottom_rev (2 * m + 2)) :
    n < (2 * m + 2) ^ 2 := by
  rw [mem_bot_even] at hb
  have hsq : (2 * m + 2) ^ 2 = (2 * m + 2) * (2 * m + 2) := pow_two _
  rcases hb with ⟨k, hk, he⟩ | ⟨k, hk, im, him, he⟩
  · have : (m + 1) * (2 * m + 2) + (m + 2 + k) < (2 * m + 2) * (2 * m + 2) := by nlinarith
    omega
  · have : (m + 2 + k) * (2 * m + 2) + (im + 1) < (2 * m + 2) * (2 * m + 2) := by
      nlinarith
    omega

/-- C2: for every even D, `all_eval` and `bottom_rev` are disjoint and
together cover exactly the D² flat pixel indices, `top` and `bottom_rev`
have equal cardinality, and in particular `center = 10` for D = 4. -/
theorem index_partition (D : ℕ) (hD : 2 ∣ D) (h2 : 2 ≤ D) :
    Disjoint (all_eval D).toFinset (bottom_rev D).toFinset ∧
      (all_eval D).toFinset ∪ (bottom_rev D).toFinset = Finset.range (D ^ 2) ∧
      (top D).length = (bottom_rev D).length ∧ center 4 = 10 := by
  obtain ⟨m, rfl⟩ : ∃ m, D = 2 * m + 2 := ⟨D / 2 - 1, by omega⟩
  refine ⟨?_, ?_, ?_, by decide⟩
  · rw [Finset.disjoint_left]
    intro n ha hb
    rw [List.mem_toFinset] at ha hb
    exact all_eval_bot_disjoint m n ha hb
  · ext n
    rw [Finset.mem_union, List.mem_toFinset, List.mem_toFinset, Finset.mem_range]
    constructor
    · rintro (h | h)
      · exact all_eval_sub_range m n h
      · exact bot_sub_range m n h
    · exact all_eval_bot_cover m n
  · rw [top_length, bot_length, half_even]
    have e1 : 2 * m + 2 - (m + 1) = m + 1 := by omega
    rw [e1]

/-- C2 witness: the partition invariant instantiated at D = 4. -/
theorem index_partition_witness :
    ((2 ∣ 4) ∧ 2 ≤ 4) ∧
      (Disjoint (all_eval 4).toFinset (bottom_rev 4).toFinset ∧
        (all_eval 4).toFinset ∪ (bottom_rev 4).toFinset = Finset.range (4 ^ 2) ∧
        (top 4).length = (bottom_rev 4).length ∧ center 4 = 10) :=
  ⟨⟨by norm_num, by norm_num⟩, index_partition 4 (by norm_num) (by norm_num)⟩

/-- C10: for every even D, every index in `top` is at most `center`, hence
in bounds for the half-evaluation buffer of length `|all_eval|`, and the
buffer entry at position t is the decoded value for pixel t itself
(`all_eval[t] = t`). -/
theorem top_le_center (m t : ℕ) (ht : t ∈ top (2 * m + 2)) :
    t ≤ center (2 * m + 2) := by
  rw [mem_top_even] at ht
  rw [center_even]
  rcases ht with ⟨jm, hjm, im, him, he⟩ | ⟨im, him, he⟩
  · have hmul : (jm + 1) * (2 * m + 2) + (2 * m + 2) ≤ (m + 1) * (2 * m + 2) := by
      have := Nat.mul_le_mul_right (2 * m + 2) (show jm + 2 ≤ m + 1 by omega)
      have e : (jm + 2) * (2 * m + 2) = (jm + 1) * (2 * m + 2) + (2 * m + 2) := by
        ring
      omega
    omega
  · omega

theorem all_eval_getD_self (m t : ℕ) (d : ℕ) (htc : t ≤ center (2 * m + 2)) :
    (all_eval (2 * m + 2)).getD t d = t := by
  have hlen : t < (all_eval (2 * m + 2)).length := by
    rw [all_eval_length_even]
    omega
  have ht1 : t < (List.range (center (2 * m + 2) + 1)).length := by
    rw [List.length_range]
    omega
  rw [List.getD_eq_getElem _ _ hlen]
  unfold all_eval
  rw [List.getElem_append_left ht1, List.getElem_range]

theorem top_indexes_buffer (D : ℕ) (hD : 2 ∣ D) (h2 : 2 ≤ D) (t : ℕ)
    (ht : t ∈ top D) :
    t ≤ center D ∧ t < (all_eval D).length ∧ (all_eval D).getD t 0 = t := by
  obtain ⟨m, rfl⟩ : ∃ m, D = 2 * m + 2 := ⟨D / 2 - 1, by omega⟩
  have htc := top_le_center m t ht
  have hlen : t < (all_eval (2 * m + 2)).length := by
    rw [all_eval_length_even]
    omega
  exact ⟨htc, hlen, all_eval_getD_self m t 0 htc⟩

/-- C10 witness: at D = 4 the top index 5 is within the first
`center+1 = 11` buffer positions and `all_eval[5] = 5`. -/
theorem top_indexes_buffer_witness :
    ((2 ∣ 4) ∧ 2 ≤ 4 ∧ 5 ∈ top 4) ∧
      (5 ≤ center 4 ∧ 5 < (all_eval 4).length ∧ (all_eval 4).getD 5 0 = 5) :=
  ⟨⟨by norm_num, by norm_num, by decide⟩,
    top_indexes_buffer 4 (by norm_num) (by norm_num) 5 (by decide)⟩

/-- C5 counterexample evidence: constructing the index sets with the odd
side length D = 5 succeeds silently (the constructor has no parity check and
no error path) and produces index sets with `|top| = 6 ≠ 10 = |bottom_rev|`,
so `forward` would misbehave later instead of failing at construction. -/
theorem odd_D_constructs_silently :
    center 5 = 12 ∧
      all_eval 5 = [0, 1, 2, 3, 4, 5, 6, 7, 8, 9, 10, 11, 12, 15, 20] ∧
      (top 5).length = 6 ∧ (bottom_rev 5).length = 10 ∧
      (top 5).length ≠ (bottom_rev 5).length := by
  decide

/-- C5 (amended): for every odd D ≥ 3 the constructor silently builds index
sets whose `top` and `bottom_rev` lengths differ by exactly D-1 (so the
partition invariant needed by `forward` is broken, with no error raised at
construction time). -/
theorem odd_D_silent_mismatch (D : ℕ) (hodd : D % 2 = 1) (h3 : 3 ≤ D) :
    (top D).length + (D - 1) = (bottom_rev D).length := by
  obtain ⟨m, rfl⟩ : ∃ m, D = 2 * m + 3 := ⟨(D - 3) / 2, by omega⟩
  have hh : half (2 * m + 3) = m + 1 := by unfold half; omega
  rw [top_length, bot_length, hh]
  have e1 : 2 * m + 3 - 1 = 2 * m + 2 := by omega
  have e2 : 2 * m + 3 - (m + 1) = m + 2 := by omega
  rw [e1, e2]
  have e3 : (m + 2) * (2 * m + 2) = (m + 1) * (2 * m + 2) + (2 * m + 2) := by ring
  have e4 : m + 1 ≤ (m + 1) * (2 * m + 2) := Nat.le_mul_of_pos_right _ (by omega)
  omega

/-- C5 witness: the length mismatch of the silently constructed index sets
at D = 5. -/
theorem odd_D_silent_mismatch_witness :
    (5 % 2 = 1 ∧ 3 ≤ 5) ∧ (top 5).length + (5 - 1) = (bottom_rev 5).length :=
  ⟨⟨rfl, by norm_num⟩, odd_D_silent_mismatch 5 rfl (by norm_num)⟩

/-!
The order pairing between `top` and `bottom_rev`: position by position,
`bottom_rev` is the point reflection `n ↦ D*(D+1) - n` of `top` (the flat
index of the negated pixel coordinate).
-/

/-- Flat index of the reflected pixel: `(j, i) ↦ (D-j, D-i)` is
`n ↦ D*(D+1) - n` on indices `n = j*D + i` with `1 ≤ i, j ≤ D-1`. -/
def mirrorIdx (D n : ℕ) : ℕ := D * (D + 1) - n

theorem mirrorIdx_grid (D j i : ℕ) (hj1 : 1 ≤ j) (hj2 : j ≤ D - 1)
    (hi1 : 1 ≤ i) (hi2 : i ≤ D - 1) :
    mirrorIdx D (j * D + i) = (D - j) * D + (D - i) := by
  have hD : 2 ≤ D := by omega
  unfold mirrorIdx
  rw [Nat.sub_mul]
  have e1 : D * (D + 1) = D * D + D := by ring
  have e2 : (j + 1) * D = j * D + D := by ring
  have h1 : (j + 1) * D ≤ D * D := Nat.mul_le_mul_right D (by omega)
  omega

theorem rowIdx_map_mirror (D j : ℕ) (h1 : 1 ≤ j) (h2 : j ≤ D - 1) :
    (rowIdx D j).map (mirrorIdx D) = (rowIdx D (D - j)).reverse := by
  have hD : 2 ≤ D := by omega
  apply List.ext_getElem
  · simp [rowIdx]
  · intro k hk1 hk2
    have hk : k < D - 1 := by simpa [rowIdx] using hk1
    rw [List.getElem_reverse]
    simp only [List.getElem_map, rowIdx, List.getElem_range, List.length_map,
      List.length_range]
    unfold mirrorIdx
    rw [Nat.sub_mul]
    have e1 : D * (D + 1) = D * D + D := by ring
    have e2 : (j + 1) * D = j * D + D := by ring
    have h1 : (j + 1) * D ≤ D * D := Nat.mul_le_mul_right D (by omega)
    omega

theorem revFlat (a : ℕ) (f : ℕ → List ℕ) :
    ((List.range a).flatMap f).reverse =
      (List.range a).flatMap fun k => (f (a - 1 - k)).reverse := by
  induction a generalizing f with
  | zero => simp
  | succ n ih =>
      conv_lhs => rw [List.range_succ]
      conv_rhs => rw [List.range_succ_eq_map]
      rw [List.flatMap_append, List.reverse_append, ih]
      simp only [List.flatMap_cons, List.flatMap_nil, List.append_nil,
        List.flatMap_map]
      congr 1
      congr 1
      funext k
      congr 2
      omega

theorem bot_eq_top_mirror (m : ℕ) :
    bottom_rev (2 * m + 2) = (top (2 * m + 2)).map (mirrorIdx (2 * m + 2)) := by
  rw [topEq, List.map_append, List.map_flatMap]
  unfold bottom_rev
  rw [botPreEq, List.reverse_append]
  congr 1
  · rw [revFlat]
    rw [List.flatMap_def, List.flatMap_def]
    congr 1
    apply List.map_congr_left
    intro k hk
    rw [List.mem_range] at hk
    rw [rowIdx_map_mirror (2 * m + 2) (k + 1) (by omega) (by omega)]
    congr 2
    omega
  · apply List.ext_getElem
    · simp
    · intro k hk1 hk2
      rw [List.getElem_reverse]
      simp only [List.getElem_map, List.getElem_range, List.length_map,
        List.length_range]
      unfold mirrorIdx
      have hk : k < m := by simpa using hk2
      have eA : (2 * m + 2) * (2 * m + 2 + 1) =
          (m + 1) * (2 * m + 2) + ((m + 1) * (2 * m + 2) + (2 * m + 2)) := by ring
      omega

/-!
The index lists are duplicate-free, so the scatter writes of `forward`
hit each destination pixel once.
-/

theorem rowIdx_nodup (D j : ℕ) : (rowIdx D j).Nodup := by
  unfold rowIdx
  exact List.Nodup.map (fun a b h => by omega) (List.nodup_range _)

theorem rowIdx_disjoint (D j j' : ℕ) (h : j ≠ j') :
    (rowIdx D j).Disjoint (rowIdx D j') := by
  intro x hx hx'
  simp only [rowIdx, List.mem_map, List.mem_range] at hx hx'
  obtain ⟨im, him, he⟩ := hx
  obtain ⟨im', him', he'⟩ := hx'
  have hgrid := @grid_eq D j j' (im + 1) (im' + 1)
    (by omega) (by omega) (by omega)
  exact h hgrid.1

theorem ravel_nodup (a D : ℕ) (g : ℕ → ℕ)
    (hg : ∀ x y, x < a → y < a → g x = g y → x = y) :
    ((List.range a).flatMap fun jm => rowIdx D (g jm)).Nodup := by
  rw [List.nodup_flatMap]
  refine ⟨fun x _ => rowIdx_nodup D (g x), ?_⟩
  have hpair : (List.range a).Pairwise (· < ·) := List.pairwise_lt_range a
  refine List.Pairwise.imp_of_mem ?_ hpair
  intro x y hx hy hxy
  rw [List.mem_range] at hx hy
  exact rowIdx_disjoint D (g x) (g y) fun he => by
    have := hg x y hx hy he
    omega

theorem top_nodup (m : ℕ) : (top (2 * m + 2)).Nodup := by
  rw [topEq]
  refine List.Nodup.append ?_ ?_ ?_
  · exact ravel_nodup m (2 * m + 2) (fun jm => jm + 1) fun x y _ _ h => by
      simpa using h
  · exact List.Nodup.map (fun a b h => by omega) (List.nodup_range _)
  · intro x hx hx'
    simp only [List.mem_flatMap, List.mem_range, rowIdx, List.mem_map] at hx
    simp only [List.mem_map, List.mem_range] at hx'
    obtain ⟨jm, hjm, im, him, he⟩ := hx
    obtain ⟨im', him', he'⟩ := hx'
    have hgrid := @grid_eq (2 * m + 2) (jm + 1) (m + 1) (im + 1) (im' + 1)
      (by omega) (by omega) (by omega)
    omega

theorem all_eval_nodup (m : ℕ) : (all_eval (2 * m + 2)).Nodup := by
  unfold all_eval
  rw [extra_even]
  refine List.Nodup.append (List.nodup_range _)
    (List.Nodup.map (fun a b h => ?_) (List.nodup_range _)) ?_
  · have := Nat.eq_of_mul_eq_mul_right (show 0 < 2 * m + 2 by omega) h
    omega
  · intro x hx hx'
    rw [List.mem_range] at hx
    simp only [List.mem_map, List.mem_range] at hx'
    obtain ⟨k, hk, he⟩ := hx'
    rw [center_even] at hx
    have e1 : (m + 2 + k) * (2 * m + 2) =
        (m + 1) * (2 * m + 2) + (k + 1) * (2 * m + 2) := by ring
    have e2 : 2 * m + 2 ≤ (k + 1) * (2 * m + 2) :=
      Nat.le_mul_of_pos_left _ (by omega)
    omega

theorem bot_nodup (m : ℕ) : (bottom_rev (2 * m + 2)).Nodup := by
  rw [bot_eq_top_mirror]
  refine List.Nodup.map_on ?_ (top_nodup m)
  intro x hx y hy he
  have hxc := top_le_center m x hx
  have hyc := top_le_center m y hy
  have hcb : center (2 * m + 2) < (2 * m + 2) * (2 * m + 2 + 1) := by
    rw [center_even]
    have e : (2 * m + 2) * (2 * m + 2 + 1) =
        (m + 1) * (2 * m + 2) + ((m + 1) * (2 * m + 2) + (2 * m + 2)) := by ring
    omega
  unfold mirrorIdx at he
  omega

/-!
Scatter assignment `image[indices] = values`, modelled as a left fold of
single-position writes, exactly one per (index, value) pair.
-/

/-- Sequential in-place writes `image[p.1] = p.2` for each pair. -/
def writeAll (img : List ℚ) (ps : List (ℕ × ℚ)) : List ℚ :=
  ps.foldl (fun im p => im.set p.1 p.2) img

theorem writeAll_cons (img : List ℚ) (p : ℕ × ℚ) (t : List (ℕ × ℚ)) :
    writeAll img (p :: t) = writeAll (img.set p.1 p.2) t := rfl

theorem writeAll_length (img : List ℚ) (ps : List (ℕ × ℚ)) :
    (writeAll img ps).length = img.length := by
  induction ps generalizing img with
  | nil => rfl
  | cons p t ih => rw [writeAll_cons, ih, List.length_set]

theorem writeAll_getD_not_mem (ps : List (ℕ × ℚ)) (n : ℕ) (d : ℚ) :
    ∀ img : List ℚ, n ∉ ps.map Prod.fst →
      (writeAll img ps).getD n d = img.getD n d := by
  induction ps with
  | nil => intro img _; rfl
  | cons p t ih =>
      intro img h
      simp only [List.map_cons, List.mem_cons, not_or] at h
      rw [writeAll_cons, ih _ h.2, List.getD_eq_getElem?_getD,
        List.getD_eq_getElem?_getD, List.getElem?_set_ne (Ne.symm h.1)]

theorem writeAll_getD_mem (ps : List (ℕ × ℚ)) (i : ℕ) (v : ℚ) (d : ℚ) :
    ∀ img : List ℚ, (ps.map Prod.fst).Nodup → (i, v) ∈ ps → i < img.length →
      (writeAll img ps).getD i d = v := by
  induction ps with
  | nil => intro img _ hm _; cases hm
  | cons p t ih =>
      intro img hnd hm hi
      rw [writeAll_cons]
      simp only [List.map_cons, List.nodup_cons] at hnd
      rcases List.mem_cons.mp hm with heq | hmem
      · subst heq
        rw [writeAll_getD_not_mem _ _ _ _ hnd.1, List.getD_eq_getElem?_getD,
          List.getElem?_set_self hi]
        rfl
      · exact ih _ hnd.2 hmem (by rw [List.length_set]; exact hi)

theorem zip_self_map {α β : Type} (l : List α) (g : α → β) :
    l.zip (l.map g) = l.map fun a => (a, g a) := by
  induction l with
  | nil => rfl
  | cons a t ih => simp [ih]

/-!
`FTSliceDecoder.forward` (models.py:128-135) and the naive full-grid
evaluation it is meant to refine.
-/

/-- Pointwise semantics of `decode` on one coordinate row. -/
def decodeOne (f : Vec3 → ℚ × ℚ) (p : Vec3) : ℚ × ℚ :=
  if 0 < p.z then ((f (negV p)).1, -(f (negV p)).2) else f p

theorem decodeList_fst_eq_map (f : Vec3 → ℚ × ℚ) (lattice : List Vec3) :
    (decodeList f lattice).1 = lattice.map (decodeOne f) := by
  simp only [decodeList, negWhere, List.map_map]
  rw [zip_self_map]
  simp only [List.map_map]
  apply List.map_congr_left
  intro p _
  simp only [Function.comp_apply, decodeOne]
  by_cases hz : 0 < p.z <;> simp [hz]

/-- `FTSliceDecoder.forward`: gather `lattice[all_eval]`, decode that half,
write `real - imag` into the `all_eval` pixels and `real[top] + imag[top]`
into the `bottom_rev` pixels.  The `torch.empty` starting buffer is modelled
as zeros (the partition invariant makes every pixel written). -/
def forwardFT (f : Vec3 → ℚ × ℚ) (coords : ℕ → Vec3) (D : ℕ) : List ℚ :=
  writeAll
    (writeAll (List.replicate (D ^ 2) 0)
      ((all_eval D).zip
        (((decodeList f ((all_eval D).map coords)).1).map fun rc => rc.1 - rc.2)))
    ((bottom_rev D).zip ((top D).map fun t =>
      ((decodeList f ((all_eval D).map coords)).1.getD t (0, 0)).1 +
        ((decodeList f ((all_eval D).map coords)).1.getD t (0, 0)).2))

/-- Naive full-grid evaluation of `real - imag` of the decoder at every
pixel coordinate, with no symmetry shortcut. -/
def naiveFT (f : Vec3 → ℚ × ℚ) (coords : ℕ → Vec3) (D : ℕ) : List ℚ :=
  (List.range (D ^ 2)).map fun n =>
    (decodeOne f (coords n)).1 - (decodeOne f (coords n)).2

/-- `np.linspace(-1, 1, D, endpoint=False)[k] = -1 + 2k/D`. -/
def linsp (D k : ℕ) : ℚ := -1 + 2 * (k : ℚ) / (D : ℚ)

/-- The slice lattice built in models.py:179-182: pixel `n = r*D + c` has
coordinate `(linsp c, linsp r, 0)`. -/
def latCoord (D n : ℕ) : Vec3 := ⟨linsp D (n % D), linsp D (n / D), 0⟩

/-- The example closed-form core decoder of the spec: real channel = sum of
the input coordinates, imaginary channel = 0. -/
def sumDec : Vec3 → ℚ × ℚ := fun p => (p.x + p.y + p.z, 0)

theorem grid_div {D j i : ℕ} (hD : 0 < D) (hi : i < D) : (j * D + i) / D = j := by
  rw [mul_comm, Nat.mul_add_div hD, Nat.div_eq_of_lt hi, Nat.add_zero]

theorem top_decomp (m t : ℕ) (ht : t ∈ top (2 * m + 2)) :
    ∃ j i, 1 ≤ j ∧ j ≤ 2 * m + 1 ∧ 1 ≤ i ∧ i ≤ 2 * m + 1 ∧
      t = j * (2 * m + 2) + i := by
  rw [mem_top_even] at ht
  rcases ht with ⟨jm, hjm, im, him, he⟩ | ⟨im, him, he⟩
  · exact ⟨jm + 1, im + 1, by omega, by omega, by omega, by omega, he⟩
  · exact ⟨m + 1, im + 1, by omega, by omega, by omega, by omega, he⟩

theorem linsp_neg (D k : ℕ) (h1 : 1 ≤ k) (h2 : k ≤ D - 1) :
    linsp D (D - k) = -(linsp D k) := by
  have hD2 : 2 ≤ D := by omega
  have hD0 : (D : ℚ) ≠ 0 := Nat.cast_ne_zero.mpr (by omega)
  unfold linsp
  rw [Nat.cast_sub (by omega)]
  field_simp
  ring

theorem lat_mirror (m t : ℕ) (ht : t ∈ top (2 * m + 2)) :
    latCoord (2 * m + 2) (mirrorIdx (2 * m + 2) t) =
      negV (latCoord (2 * m + 2) t) := by
  obtain ⟨j, i, hj1, hj2, hi1, hi2, rfl⟩ := top_decomp m t ht
  rw [mirrorIdx_grid _ _ _ hj1 (by omega) hi1 (by omega)]
  unfold latCoord negV
  have e1 : ((2 * m + 2 - j) * (2 * m + 2) + (2 * m + 2 - i)) % (2 * m + 2) =
      2 * m + 2 - i := grid_mod (by omega)
  have e2 : ((2 * m + 2 - j) * (2 * m + 2) + (2 * m + 2 - i)) / (2 * m + 2) =
      2 * m + 2 - j := grid_div (by omega) (by omega)
  have e3 : (j * (2 * m + 2) + i) % (2 * m + 2) = i := grid_mod (by omega)
  have e4 : (j * (2 * m + 2) + i) / (2 * m + 2) = j := grid_div (by omega) (by omega)
  rw [e1, e2, e3, e4, linsp_neg _ _ hi1 (by omega), linsp_neg _ _ hj1 (by omega)]
  simp

theorem decodeOne_lat (f : Vec3 → ℚ × ℚ) (D n : ℕ) :
    decodeOne f (latCoord D n) = f (latCoord D n) := by
  simp [decodeOne, latCoord]

theorem decode_gather_eq (f : Vec3 → ℚ × ℚ) (D : ℕ) (l : List ℕ) :
    (decodeList f (l.map (latCoord D))).1 = l.map fun k => f (latCoord D k) := by
  rw [decodeList_fst_eq_map, List.map_map]
  apply List.map_congr_left
  intro k _
  simp only [Function.comp_apply]
  exact decodeOne_lat f D k

theorem naive_getD (f : Vec3 → ℚ × ℚ) (coords : ℕ → Vec3) (D n : ℕ)
    (hn : n < D ^ 2) :
    (naiveFT f coords D).getD n 0 =
      (decodeOne f (coords n)).1 - (decodeOne f (coords n)).2 := by
  unfold naiveFT
  rw [List.getD_eq_getElem _ _ (by simpa using hn), List.getElem_map,
    List.getElem_range]

theorem forward_getD_all (m : ℕ) (f : Vec3 → ℚ × ℚ) (n : ℕ)
    (hA : n ∈ all_eval (2 * m + 2)) :
    (forwardFT f (latCoord (2 * m + 2)) (2 * m + 2)).getD n 0 =
      (f (latCoord (2 * m + 2) n)).1 - (f (latCoord (2 * m + 2) n)).2 := by
  unfold forwardFT
  rw [decode_gather_eq, List.map_map, zip_self_map]
  simp only [Function.comp_apply]
  have hnB : n ∉ bottom_rev (2 * m + 2) := all_eval_bot_disjoint m n hA
  have hlenTB : (bottom_rev (2 * m + 2)).length ≤
      ((top (2 * m + 2)).map fun t =>
        (((all_eval (2 * m + 2)).map fun k => f (latCoord (2 * m + 2) k)).getD t
            (0, 0)).1 +
          (((all_eval (2 * m + 2)).map fun k => f (latCoord (2 * m + 2) k)).getD t
            (0, 0)).2).length := by
    rw [List.length_map, bot_eq_top_mirror m, List.length_map]
  have hskip := writeAll_getD_not_mem
    ((bottom_rev (2 * m + 2)).zip
      ((top (2 * m + 2)).map fun t =>
        (((all_eval (2 * m + 2)).map fun k => f (latCoord (2 * m + 2) k)).getD t
            (0, 0)).1 +
          (((all_eval (2 * m + 2)).map fun k => f (latCoord (2 * m + 2) k)).getD t
            (0, 0)).2)) n 0
  rw [hskip _ (by rw [List.map_fst_zip _ _ hlenTB]; exact hnB)]
  apply writeAll_getD_mem
  · rw [List.map_map]
    exact (List.map_id _).symm ▸ all_eval_nodup m
  · exact List.mem_map_of_mem _ hA
  · rw [List.length_replicate]
    exact all_eval_sub_range m n hA

theorem forward_getD_bot (m : ℕ) (f : Vec3 → ℚ × ℚ) (t : ℕ)
    (ht : t ∈ top (2 * m + 2)) :
    (forwardFT f (latCoord (2 * m + 2)) (2 * m + 2)).getD
        (mirrorIdx (2 * m + 2) t) 0 =
      (f (latCoord (2 * m + 2) t)).1 + (f (latCoord (2 * m + 2) t)).2 := by
  unfold forwardFT
  rw [decode_gather_eq]
  have hvals : ((top (2 * m + 2)).map fun s =>
      ((((all_eval (2 * m + 2)).map fun k => f (latCoord (2 * m + 2) k)).getD s
          (0, 0)).1 +
        (((all_eval (2 * m + 2)).map fun k => f (latCoord (2 * m + 2) k)).getD s
          (0, 0)).2)) =
      (top (2 * m + 2)).map fun s =>
        (f (latCoord (2 * m + 2) s)).1 + (f (latCoord (2 * m + 2) s)).2 := by
    apply List.map_congr_left
    intro s hs
    have hsc := top_le_center m s hs
    have hlen : s < (all_eval (2 * m + 2)).length := by
      rw [all_eval_length_even]; omega
    have hmaplen :
        s < ((all_eval (2 * m + 2)).map fun k => f (latCoord (2 * m + 2) k)).length := by
      rw [List.length_map]; exact hlen
    rw [List.getD_eq_getElem _ _ hmaplen, List.getElem_map]
    have hself : (all_eval (2 * m + 2))[s] = s := by
      have h := all_eval_getD_self m s 0 hsc
      rwa [List.getD_eq_getElem _ _ hlen] at h
    rw [hself]
  rw [hvals, bot_eq_top_mirror m, List.zip_map']
  apply writeAll_getD_mem
  · rw [List.map_map]
    have hc : ((top (2 * m + 2)).map fun a =>
        (Prod.fst ∘ fun s => (mirrorIdx (2 * m + 2) s,
          (f (latCoord (2 * m + 2) s)).1 + (f (latCoord (2 * m + 2) s)).2)) a) =
        (top (2 * m + 2)).map (mirrorIdx (2 * m + 2)) :=
      List.map_congr_left fun a _ => rfl
    rw [hc, ← bot_eq_top_mirror m]
    exact bot_nodup m
  · exact List.mem_map_of_mem _ ht
  · rw [writeAll_length, List.length_replicate]
    apply bot_sub_range m
    rw [bot_eq_top_mirror m]
    exact List.mem_map_of_mem _ ht

/-- C3 (amended): for every even D ≥ 2 and every core decoder satisfying the
Hermitian symmetry `f(-p).real = f(p).real`, `f(-p).imag = -f(p).imag`, the
symmetric `forward` on the D×D slice lattice equals the naive full-grid
evaluation of `real - imag` at every coordinate. -/
theorem forward_eq_naive_hermitian (D : ℕ) (hD : 2 ∣ D) (h2 : 2 ≤ D)
    (f : Vec3 → ℚ × ℚ)
    (hf : ∀ p, (f (negV p)).1 = (f p).1 ∧ (f (negV p)).2 = -(f p).2) :
    forwardFT f (latCoord D) D = naiveFT f (latCoord D) D := by
  obtain ⟨m, rfl⟩ : ∃ m, D = 2 * m + 2 := ⟨D / 2 - 1, by omega⟩
  apply List.ext_getElem
  · unfold forwardFT naiveFT
    rw [writeAll_length, writeAll_length, List.length_replicate, List.length_map,
      List.length_range]
  · intro n hn1 hn2
    have hn : n < (2 * m + 2) ^ 2 := by
      have h := hn1
      unfold forwardFT at h
      rwa [writeAll_length, writeAll_length, List.length_replicate] at h
    rw [(List.getD_eq_getElem _ (0 : ℚ) hn1).symm,
      (List.getD_eq_getElem _ (0 : ℚ) hn2).symm, naive_getD f _ _ n hn]
    rcases all_eval_bot_cover m n hn with hA | hB
    · rw [forward_getD_all m f n hA, decodeOne_lat]
    · rw [bot_eq_top_mirror m] at hB
      obtain ⟨t, ht, rfl⟩ := List.mem_map.mp hB
      rw [forward_getD_bot m f t ht, decodeOne_lat, lat_mirror m t ht,
        (hf (latCoord (2 * m + 2) t)).1, (hf (latCoord (2 * m + 2) t)).2]
      ring

/-- C3 counterexample: with the spec's example decoder (real = sum of the
coordinates, imag = 0) on the D = 4 slice lattice, the symmetric `forward`
puts `-1` at pixel 15 while the naive full-grid evaluation puts `+1` there,
so the two images differ (that decoder violates Hermitian symmetry, which
`forward` silently assumes). -/
theorem forward_ne_naive_on_sum_decoder :
    (forwardFT sumDec (latCoord 4) 4).getD 15 0 = -1 ∧
      (naiveFT sumDec (latCoord 4) 4).getD 15 0 = 1 ∧
      forwardFT sumDec (latCoord 4) 4 ≠ naiveFT sumDec (latCoord 4) 4 := by
  have h5 : (5 : ℕ) ∈ top (2 * 1 + 2) := by decide
  have hmir : mirrorIdx (2 * 1 + 2) 5 = 15 := by decide
  have hfwd := forward_getD_bot 1 sumDec 5 h5
  rw [hmir] at hfwd
  have hfwd2 : (forwardFT sumDec (latCoord 4) 4).getD 15 0 =
      (sumDec (latCoord 4 5)).1 + (sumDec (latCoord 4 5)).2 := hfwd
  have hfwd' : (forwardFT sumDec (latCoord 4) 4).getD 15 0 = -1 := by
    rw [hfwd2]
    norm_num [sumDec, latCoord, linsp]
  have hnv := naive_getD sumDec (latCoord 4) 4 15 (by norm_num)
  have hnv' : (naiveFT sumDec (latCoord 4) 4).getD 15 0 = 1 := by
    rw [hnv, decodeOne_lat]
    norm_num [sumDec, latCoord, linsp]
  refine ⟨hfwd', hnv', fun h => ?_⟩
  rw [h, hnv'] at hfwd'
  norm_num at hfwd'

/-- C3 witness for the amended theorem: the constant decoder `(1, 0)` is
Hermitian-symmetric and at D = 4 the symmetric forward equals the naive
full-grid evaluation. -/
theorem forward_eq_naive_hermitian_witness :
    ((2 ∣ 4) ∧ 2 ≤ 4 ∧
        (∀ p, ((fun _ : Vec3 => ((1 : ℚ), (0 : ℚ))) (negV p)).1 =
            ((fun _ : Vec3 => ((1 : ℚ), (0 : ℚ))) p).1 ∧
          ((fun _ : Vec3 => ((1 : ℚ), (0 : ℚ))) (negV p)).2 =
            -((fun _ : Vec3 => ((1 : ℚ), (0 : ℚ))) p).2)) ∧
      forwardFT (fun _ : Vec3 => ((1 : ℚ), (0 : ℚ))) (latCoord 4) 4 =
        naiveFT (fun _ : Vec3 => ((1 : ℚ), (0 : ℚ))) (latCoord 4) 4 :=
  ⟨⟨by norm_num, by norm_num, fun p => ⟨rfl, by norm_num⟩⟩,
    forward_eq_naive_hermitian 4 (by norm_num) (by norm_num) _
      fun p => ⟨rfl, by norm_num⟩⟩


/-!
`HetVAE.cat_z` and `HetVAE.forward` (models.py:64-77).  The latent code `z`
of shape (B, zdim) is viewed to (B, 1, 1) — which raises unless the element
counts `B*zdim` and `B*1` agree — then broadcast and concatenated as one
extra channel onto every rotated coordinate; the result feeds the
FTSliceDecoder, whose `decode` negates only the first three components.
-/

/-- Pointwise `decode` semantics on a coordinate carrying a latent channel:
the mask tests the third component, the negation covers components 0:3 only,
and the latent channel is untouched. -/
def decode4One (f : Vec3 × ℚ → ℚ × ℚ) (p : Vec3 × ℚ) : ℚ × ℚ :=
  if 0 < p.1.z then ((f (negV p.1, p.2)).1, -(f (negV p.1, p.2)).2) else f p

/-- `FTSliceDecoder.decode` on a batch of 3+1 dimensional rows. -/
def decodeList4 (f : Vec3 × ℚ → ℚ × ℚ) (lattice : List (Vec3 × ℚ)) :
    List (ℚ × ℚ) × List (Vec3 × ℚ) :=
  let lat' := lattice.map fun p => if 0 < p.1.z then (negV p.1, p.2) else p
  let res := lat'.map f
  let res' := (lattice.zip res).map fun pr =>
    if 0 < pr.1.1.z then (pr.2.1, -pr.2.2) else pr.2
  (res', lat')

/-- `FTSliceDecoder.forward` on 3+1 dimensional rows. -/
def forwardFT4 (f : Vec3 × ℚ → ℚ × ℚ) (coords : ℕ → Vec3 × ℚ) (D : ℕ) :
    List ℚ :=
  writeAll
    (writeAll (List.replicate (D ^ 2) 0)
      ((all_eval D).zip
        (((decodeList4 f ((all_eval D).map coords)).1).map fun rc => rc.1 - rc.2)))
    ((bottom_rev D).zip ((top D).map fun t =>
      ((decodeList4 f ((all_eval D).map coords)).1.getD t (0, 0)).1 +
        ((decodeList4 f ((all_eval D).map coords)).1.getD t (0, 0)).2))

/-- `HetVAE.cat_z`: `z.view(B, 1, 1)` succeeds exactly when `B*zdim = B*1`
(torch's element-count rule); on success the latent scalar `z[b,0]` (flat
index `b*zdim`) is appended as a fourth channel to every coordinate of batch
row b. -/
def catZ (B zdim : ℕ) (z : ℕ → ℚ) (coords : ℕ → ℕ → Vec3) :
    Except String (ℕ → ℕ → Vec3 × ℚ) :=
  if B * zdim = B * 1 then
    Except.ok fun b n => (coords b n, z (b * zdim))
  else
    Except.error "cannot view z of numel B*zdim as shape (B,1,...,1)"

/-- `HetVAE.forward`: rotate the lattice (`coords @ rot`, per batch row),
concatenate the latent channel via `cat_z`, decode with the symmetric slice
decoder.  No property of `rot` is ever checked. -/
def hetForward (f : Vec3 × ℚ → ℚ × ℚ) (D : ℕ) (latticeCoords : ℕ → Vec3)
    (rot : ℕ → Mat3) (B zdim : ℕ) (z : ℕ → ℚ) : Except String (ℕ → List ℚ) :=
  match catZ B zdim z (fun b n => vecMul (latticeCoords n) (rot b)) with
  | Except.ok xz => Except.ok fun b => forwardFT4 f (xz b) D
  | Except.error e => Except.error e

/-- C9: with a nonempty batch, `cat_z` succeeds exactly for a one-dimensional
latent code — appending one channel per coordinate — and errors (as does
`HetVAE.forward`) for every latent dimension greater than one. -/
theorem catZ_latent_dim (B zdim : ℕ) (z : ℕ → ℚ) (coords : ℕ → ℕ → Vec3)
    (f : Vec3 × ℚ → ℚ × ℚ) (D : ℕ) (lat : ℕ → Vec3) (rot : ℕ → Mat3)
    (hB : 0 < B) :
    (zdim = 1 →
      catZ B zdim z coords = Except.ok fun b n => (coords b n, z b)) ∧
      (1 < zdim →
        (∃ e, catZ B zdim z coords = Except.error e) ∧
          ∃ e, hetForward f D lat rot B zdim z = Except.error e) := by
  constructor
  · rintro rfl
    unfold catZ
    rw [if_pos rfl]
    congr 1
    funext b n
    rw [mul_one]
  · intro hz
    have hne : ¬ B * zdim = B * 1 := by
      have h1 : B * 1 < B * zdim := by
        apply Nat.mul_lt_mul_of_le_of_lt (le_refl B) hz hB
      omega
    constructor
    · exact ⟨_, by unfold catZ; rw [if_neg hne]⟩
    · exact ⟨_, by unfold hetForward catZ; rw [if_neg hne]⟩

/-- C9 witness: for batch size 1 and latent dimension 2, `cat_z` raises. -/
theorem catZ_latent_dim_witness :
    0 < 1 ∧
      ((∃ e, catZ 1 2 (fun _ => 0) (fun _ _ => Vec3.zero) = Except.error e) ∧
        ∃ e, hetForward (fun _ => ((1 : ℚ), (0 : ℚ))) 2 (fun _ => Vec3.zero)
          (fun _ => 1) 1 2 (fun _ => 0) = Except.error e) :=
  ⟨by norm_num,
    (catZ_latent_dim 1 2 (fun _ => 0) (fun _ _ => Vec3.zero)
      (fun _ => ((1 : ℚ), (0 : ℚ))) 2 (fun _ => Vec3.zero) (fun _ => 1)
      (by norm_num)).2 (by norm_num)⟩

/-- C8 (amended): `HetVAE.forward` performs no orthonormality validation on
the rotation input: for a one-dimensional latent code it evaluates to a
normal image for every 3×3 matrix, orthonormal or not, by applying the
matrix to the lattice and decoding. -/
theorem hetForward_no_rot_check (f : Vec3 × ℚ → ℚ × ℚ) (D : ℕ)
    (lat : ℕ → Vec3) (rot : ℕ → Mat3) (B : ℕ) (z : ℕ → ℚ) :
    hetForward f D lat rot B 1 z =
      Except.ok fun b =>
        forwardFT4 f (fun n => (vecMul (lat n) (rot b), z (b * 1))) D := by
  unfold hetForward catZ
  rw [if_pos rfl]

/-- C8 counterexample: the zero matrix is not orthonormal, yet `forward`
returns a normal image result on it instead of failing fast. -/
theorem hetForward_accepts_non_orthonormal :
    ¬ IsOrthonormal 0 ∧
      (hetForward (fun _ => ((1 : ℚ), (0 : ℚ))) 2 (fun _ => Vec3.zero)
        (fun _ => 0) 1 1 (fun _ => 0)).isOk = true := by
  constructor
  · intro h
    have h00 := congrFun (congrFun h 0) 0
    simp [IsOrthonormal, Matrix.mul_apply] at h00
  · rfl

end Models
